import Mathlib

/-!
# Verification of the opossum/hyrise core against its specification

A shallow embedding, in Lean 4, of the parts of the engine that the
specification's claims are about:

* `SetUnion::_on_execute` (src/lib/operators/set_union.cpp): the
  reference-matrix merge and the chunk emission loop;
* `DictionaryEncoder::_encode` (src/lib/storage/column_encoders/dictionary_encoder.hpp):
  dictionary construction, attribute vector, fixed-size byte-aligned width choice;
* `RunLengthColumn<T>::operator[]` and `size` (run_length_column.cpp);
* `BaseExpression` (base_expression.cpp): `deep_copy` and `operator==`;
* `SQLTranslator` (sql_translator.cpp): `get_scan_type_for_reverse_order`,
  `_translate_predicate` (comparison branch), and `_translate_aggregate`.

Machine integers that never overflow in the modelled paths (row ids, column
ids, sizes) are modelled as `Nat`; fallible code is modelled with
`Except String`/`Option`.
-/

namespace Opossum

/-! ## Row ids and row tuples (types.hpp / set_union.cpp)

A `RowID` is a pair `(chunk_id, chunk_offset)`.  Modelled from the spec:
`types.hpp` is not under src/; the spec (§3) says a row id is "a pair
`(chunk_index, offset_in_chunk)`; totally ordered lexicographically". -/

abbrev RowID := Nat × Nat

/-- `RowID::operator<`: lexicographic on `(chunk_id, chunk_offset)`. -/
def rowIdLt (a b : RowID) : Bool :=
  a.1 < b.1 || (a.1 = b.1 && a.2 < b.2)

/-- The comparator loop of `VirtualPosListCmpContext::operator()` /
the local `cmp` lambda in `SetUnion::_on_execute`: walk the reference-matrix
columns; the first column where the two row ids differ decides. -/
def rowTupleLtList : List RowID → List RowID → Bool
  | a :: as, b :: bs =>
    if rowIdLt a b then true
    else if rowIdLt b a then false
    else rowTupleLtList as bs
  | _, _ => false

theorem rowIdLt_iff (a b : RowID) :
    rowIdLt a b = true ↔ a.1 < b.1 ∨ (a.1 = b.1 ∧ a.2 < b.2) := by
  simp [rowIdLt]

theorem rowIdLt_irrefl (a : RowID) : rowIdLt a a = false := by
  simp [rowIdLt]

theorem rowIdLt_asymm {a b : RowID} (h : rowIdLt a b = true) : rowIdLt b a = false := by
  rw [rowIdLt_iff] at h
  rw [← Bool.not_eq_true, rowIdLt_iff]
  omega

theorem rowIdLt_trans {a b c : RowID} (hab : rowIdLt a b = true) (hbc : rowIdLt b c = true) :
    rowIdLt a c = true := by
  rw [rowIdLt_iff] at hab hbc ⊢
  omega

theorem rowIdLt_total {a b : RowID} (hab : rowIdLt a b = false) (hba : rowIdLt b a = false) :
    a = b := by
  rw [← Bool.not_eq_true, rowIdLt_iff] at hab hba
  rcases a with ⟨a1, a2⟩; rcases b with ⟨b1, b2⟩
  simp only [Prod.mk.injEq]
  simp only at hab hba
  omega

theorem rowTupleLtList_irrefl (a : List RowID) : rowTupleLtList a a = false := by
  induction a with
  | nil => rfl
  | cons x xs ih => simp [rowTupleLtList, rowIdLt_irrefl, ih]

theorem rowTupleLtList_asymm : ∀ {a b : List RowID},
    rowTupleLtList a b = true → rowTupleLtList b a = false
  | a :: as, b :: bs, h => by
    cases hab : rowIdLt a b with
    | true => simp [rowTupleLtList, rowIdLt_asymm hab, hab]
    | false =>
      cases hba : rowIdLt b a with
      | true => simp [rowTupleLtList, hab, hba] at h
      | false =>
        simp only [rowTupleLtList, hab, hba, if_false, Bool.false_eq_true] at h ⊢
        exact rowTupleLtList_asymm h

theorem rowTupleLtList_trans : ∀ {a b c : List RowID}, a.length = b.length →
    b.length = c.length →
    rowTupleLtList a b = true → rowTupleLtList b c = true → rowTupleLtList a c = true
  | [], [], [], _, _, hab, _ => by simp [rowTupleLtList] at hab
  | a :: as, b :: bs, c :: cs, hl1, hl2, hab, hbc => by
    simp only [List.length_cons, Nat.add_right_cancel_iff] at hl1 hl2
    cases h1 : rowIdLt a b with
    | true =>
      cases h2 : rowIdLt b c with
      | true => simp [rowTupleLtList, rowIdLt_trans h1 h2]
      | false =>
        cases h3 : rowIdLt c b with
        | true => simp [rowTupleLtList, h2, h3] at hbc
        | false =>
          have hcb := rowIdLt_total h2 h3
          subst hcb
          simp [rowTupleLtList, h1]
    | false =>
      cases h4 : rowIdLt b a with
      | true => simp [rowTupleLtList, h1, h4] at hab
      | false =>
        have hba := rowIdLt_total h1 h4
        subst hba
        simp only [rowTupleLtList, h1, rowIdLt_irrefl, if_false, Bool.false_eq_true] at hab
        cases h5 : rowIdLt a c with
        | true => simp [rowTupleLtList, h5]
        | false =>
          cases h6 : rowIdLt c a with
          | true => simp [rowTupleLtList, h5, h6] at hbc
          | false =>
            simp only [rowTupleLtList, h5, h6, if_false, Bool.false_eq_true] at hbc ⊢
            exact rowTupleLtList_trans hl1 hl2 hab hbc

theorem rowTupleLtList_total : ∀ {a b : List RowID}, a.length = b.length →
    rowTupleLtList a b = false → rowTupleLtList b a = false → a = b
  | [], [], _, _, _ => rfl
  | a :: as, b :: bs, hl, hab, hba => by
    simp only [List.length_cons, Nat.add_right_cancel_iff] at hl
    cases h1 : rowIdLt a b with
    | true => simp [rowTupleLtList, h1] at hab
    | false =>
      cases h2 : rowIdLt b a with
      | true => simp [rowTupleLtList, h2] at hba
      | false =>
        have hba' := rowIdLt_total h1 h2
        subst hba'
        simp only [rowTupleLtList, h1, rowIdLt_irrefl, if_false, Bool.false_eq_true] at hab hba
        have := rowTupleLtList_total hl hab hba
        simp [this]

/-- A row of a `ReferenceMatrix`: one `RowID` per column segment.  All rows of
both matrices have the same number of entries (`_column_segment_begins.size()`),
so the comparator is a strict total order. -/
def RowTuple (s : Nat) := { t : List RowID // t.length = s }

instance (s : Nat) : DecidableEq (RowTuple s) := fun a b =>
  decidable_of_iff (a.val = b.val) Subtype.ext_iff.symm

/-- The row comparator, on rows of a fixed segment count. -/
def rowTupleLt {s : Nat} (a b : RowTuple s) : Bool := rowTupleLtList a.val b.val

/-- `¬(b < a)`: the non-strict order induced by the comparator. -/
def rowTupleLe {s : Nat} (a b : RowTuple s) : Bool := !rowTupleLt b a

theorem rowTupleLe_trans {s : Nat} (a b c : RowTuple s) (hab : rowTupleLe a b = true)
    (hbc : rowTupleLe b c = true) : rowTupleLe a c = true := by
  rcases a with ⟨a, ha⟩; rcases b with ⟨b, hb⟩; rcases c with ⟨c, hc⟩
  simp only [rowTupleLe, rowTupleLt, Bool.not_eq_true'] at hab hbc ⊢
  cases hca : rowTupleLtList c a with
  | false => rfl
  | true =>
    exfalso
    cases hbc' : rowTupleLtList b c with
    | true =>
      have hba : rowTupleLtList b a = true :=
        rowTupleLtList_trans (hb.trans hc.symm) (hc.trans ha.symm) hbc' hca
      rw [hba] at hab
      simp at hab
    | false =>
      have hbeq : b = c := rowTupleLtList_total (hb.trans hc.symm) hbc' hbc
      rw [← hbeq] at hca
      rw [hca] at hab
      simp at hab

theorem rowTupleLt_irrefl {s : Nat} (a : RowTuple s) : rowTupleLt a a = false :=
  rowTupleLtList_irrefl a.val

theorem rowTupleLt_asymm {s : Nat} {a b : RowTuple s} (h : rowTupleLt a b = true) :
    rowTupleLt b a = false :=
  rowTupleLtList_asymm h

theorem rowTupleLt_total {s : Nat} {a b : RowTuple s} (hab : rowTupleLt a b = false)
    (hba : rowTupleLt b a = false) : a = b :=
  Subtype.ext (rowTupleLtList_total (a.prop.trans b.prop.symm) hab hba)

theorem rowTupleLe_total {s : Nat} (a b : RowTuple s) :
    rowTupleLe a b || rowTupleLe b a := by
  simp only [rowTupleLe, Bool.or_eq_true, Bool.not_eq_true']
  cases h : rowTupleLt b a with
  | false => exact Or.inl rfl
  | true => exact Or.inr (rowTupleLt_asymm h)

theorem rowTupleLe_of_not {s : Nat} {a b : RowTuple s} (h : rowTupleLe a b = false) :
    rowTupleLe b a = true := by
  have := rowTupleLe_total a b
  rw [h] at this
  simpa using this

theorem rowTupleLe_refl {s : Nat} (a : RowTuple s) : rowTupleLe a a = true := by
  simp [rowTupleLe, rowTupleLt_irrefl]

/-! ## The `std::set_union`-style merge loop of `SetUnion::_on_execute`

`mergeUnion` is the merge loop (lines 194–216 of set_union.cpp) read over the
sequences of reference-matrix rows selected by the two sorted virtual pos
lists: when one side is exhausted the other side's row is emitted; otherwise
the right row is emitted if it compares less than the left row; otherwise the
left row is emitted, and — when the two rows are equal, i.e. the left row is
also not less than the right row — the right cursor advances as well. -/

def mergeUnion {s : Nat} : List (RowTuple s) → List (RowTuple s) → List (RowTuple s)
  | [], r => r
  | a :: l, [] => a :: l
  | a :: l, b :: r =>
    if rowTupleLt b a then b :: mergeUnion (a :: l) r
    else if rowTupleLt a b then a :: mergeUnion l (b :: r)
    else a :: mergeUnion l r
termination_by l r => l.length + r.length

/-- `std::sort` of the virtual pos list (lines 137–140 of set_union.cpp):
sorting the reference-matrix rows by the lexicographic comparator.  (The
source sorts a list of indices into the matrix and never moves the rows;
reading the rows through the sorted index list yields this sorted row
sequence.)  `std::sort`'s contract — a sorted permutation — is modelled by
insertion sort, whose output is provably sorted and a permutation; as ties
of the comparator imply equality of rows, the sorted sequence is unique. -/
def insertRow {s : Nat} (x : RowTuple s) : List (RowTuple s) → List (RowTuple s)
  | [] => [x]
  | y :: ys => if rowTupleLe x y then x :: y :: ys else y :: insertRow x ys

def sortRows {s : Nat} (l : List (RowTuple s)) : List (RowTuple s) :=
  l.foldr insertRow []

theorem insertRow_perm {s : Nat} (x : RowTuple s) (l : List (RowTuple s)) :
    List.Perm (insertRow x l) (x :: l) := by
  induction l with
  | nil => rfl
  | cons y ys ih =>
    simp only [insertRow]
    split
    · rfl
    · exact ((ih.cons y).trans (List.Perm.swap x y ys))

theorem sortRows_perm {s : Nat} (l : List (RowTuple s)) : List.Perm (sortRows l) l := by
  induction l with
  | nil => rfl
  | cons y ys ih => exact (insertRow_perm y (sortRows ys)).trans (ih.cons y)

theorem mem_insertRow {s : Nat} {x y : RowTuple s} {l : List (RowTuple s)} :
    y ∈ insertRow x l ↔ y = x ∨ y ∈ l := by
  rw [(insertRow_perm x l).mem_iff]
  simp

theorem pairwise_insertRow {s : Nat} {x : RowTuple s} {l : List (RowTuple s)}
    (h : l.Pairwise (fun a b => rowTupleLe a b = true)) :
    (insertRow x l).Pairwise (fun a b => rowTupleLe a b = true) := by
  induction l with
  | nil => simp [insertRow]
  | cons y ys ih =>
    rw [List.pairwise_cons] at h
    simp only [insertRow]
    split
    · rename_i hxy
      rw [List.pairwise_cons]
      refine ⟨?_, List.pairwise_cons.mpr h⟩
      intro b hb
      rcases List.mem_cons.mp hb with rfl | hb
      · exact hxy
      · exact rowTupleLe_trans x y b hxy (h.1 b hb)
    · rename_i hxy
      have hyx : rowTupleLe y x = true := rowTupleLe_of_not (by simpa using hxy)
      rw [List.pairwise_cons]
      refine ⟨?_, ih h.2⟩
      intro b hb
      rcases mem_insertRow.mp hb with hb | hb
      · exact hb ▸ hyx
      · exact h.1 b hb

theorem sortRows_sorted {s : Nat} (l : List (RowTuple s)) :
    (sortRows l).Pairwise (fun a b => rowTupleLe a b = true) := by
  induction l with
  | nil => exact List.Pairwise.nil
  | cons y ys ih => exact pairwise_insertRow ih

theorem rowTupleLe_of_lt {s : Nat} {a b : RowTuple s} (h : rowTupleLt a b = true) :
    rowTupleLe a b = true := by
  simp [rowTupleLe, rowTupleLt_asymm h]

theorem rowTupleLe_of_not_lt {s : Nat} {a b : RowTuple s} (h : rowTupleLt b a = false) :
    rowTupleLe a b = true := by
  simp [rowTupleLe, h]

/-- A row strictly below the head of a sorted list occurs nowhere in it. -/
theorem not_mem_of_lt_head {s : Nat} {b a : RowTuple s} {l : List (RowTuple s)}
    (hba : rowTupleLt b a = true)
    (hl : (a :: l).Pairwise (fun x y => rowTupleLe x y = true)) : b ∉ a :: l := by
  intro hmem
  rcases List.mem_cons.mp hmem with rfl | hmem
  · rw [rowTupleLt_irrefl] at hba
    simp at hba
  · have hle := (List.pairwise_cons.mp hl).1 b hmem
    rw [rowTupleLe, hba] at hle
    simp at hle

/-- Each output row of the merge appears `max(left multiplicity, right
multiplicity)` times, provided both inputs are sorted: this is the
`std::set_union` multiplicity contract of the merge loop. -/
theorem count_mergeUnion {s : Nat} : ∀ (l r : List (RowTuple s)),
    l.Pairwise (fun x y => rowTupleLe x y = true) →
    r.Pairwise (fun x y => rowTupleLe x y = true) →
    ∀ x, (mergeUnion l r).count x = max (l.count x) (r.count x)
  | [], r, _, _, x => by simp [mergeUnion]
  | a :: l, [], _, _, x => by simp [mergeUnion]
  | a :: l, b :: r, hl, hr, x => by
    cases hba : rowTupleLt b a with
    | true =>
      have hstep : mergeUnion (a :: l) (b :: r) = b :: mergeUnion (a :: l) r := by
        simp [mergeUnion, hba]
      have ih := count_mergeUnion (a :: l) r hl hr.of_cons x
      rw [hstep]
      by_cases hx : x = b
      · subst hx
        have hzero : (a :: l).count x = 0 :=
          List.count_eq_zero_of_not_mem (not_mem_of_lt_head hba hl)
        rw [List.count_cons_self, ih, hzero, List.count_cons_self]
        omega
      · rw [List.count_cons_of_ne hx, ih, List.count_cons_of_ne hx]
    | false =>
      cases hab : rowTupleLt a b with
      | true =>
        have hstep : mergeUnion (a :: l) (b :: r) = a :: mergeUnion l (b :: r) := by
          simp [mergeUnion, hba, hab]
        have ih := count_mergeUnion l (b :: r) hl.of_cons hr x
        rw [hstep]
        by_cases hx : x = a
        · subst hx
          have hzero : (b :: r).count x = 0 :=
            List.count_eq_zero_of_not_mem (not_mem_of_lt_head hab hr)
          rw [List.count_cons_self, ih, hzero, List.count_cons_self]
          omega
        · rw [List.count_cons_of_ne hx, ih, List.count_cons_of_ne hx]
      | false =>
        have heq : a = b := rowTupleLt_total hab hba
        subst heq
        have hstep : mergeUnion (a :: l) (a :: r) = a :: mergeUnion l r := by
          simp [mergeUnion, hba, hab]
        have ih := count_mergeUnion l r hl.of_cons hr.of_cons x
        rw [hstep]
        by_cases hx : x = a
        · subst hx
          rw [List.count_cons_self, ih, List.count_cons_self, List.count_cons_self]
          omega
        · rw [List.count_cons_of_ne hx, ih, List.count_cons_of_ne hx,
            List.count_cons_of_ne hx]
termination_by l r => l.length + r.length

theorem mem_mergeUnion {s : Nat} : ∀ {l r : List (RowTuple s)} {x : RowTuple s},
    x ∈ mergeUnion l r ↔ x ∈ l ∨ x ∈ r
  | [], r, x => by simp [mergeUnion]
  | a :: l, [], x => by simp [mergeUnion]
  | a :: l, b :: r, x => by
    cases hba : rowTupleLt b a with
    | true =>
      have hstep : mergeUnion (a :: l) (b :: r) = b :: mergeUnion (a :: l) r := by
        simp [mergeUnion, hba]
      rw [hstep]
      simp only [List.mem_cons, mem_mergeUnion (l := a :: l) (r := r)]
      tauto
    | false =>
      cases hab : rowTupleLt a b with
      | true =>
        have hstep : mergeUnion (a :: l) (b :: r) = a :: mergeUnion l (b :: r) := by
          simp [mergeUnion, hba, hab]
        rw [hstep]
        simp only [List.mem_cons, mem_mergeUnion (l := l) (r := b :: r)]
        tauto
      | false =>
        have heq : a = b := rowTupleLt_total hab hba
        subst heq
        have hstep : mergeUnion (a :: l) (a :: r) = a :: mergeUnion l r := by
          simp [mergeUnion, hba, hab]
        rw [hstep]
        simp only [List.mem_cons, mem_mergeUnion (l := l) (r := r)]
        tauto
termination_by l r => l.length + r.length

/-- The merge of two sorted row sequences is sorted. -/
theorem sorted_mergeUnion {s : Nat} : ∀ (l r : List (RowTuple s)),
    l.Pairwise (fun x y => rowTupleLe x y = true) →
    r.Pairwise (fun x y => rowTupleLe x y = true) →
    (mergeUnion l r).Pairwise (fun x y => rowTupleLe x y = true)
  | [], r, _, hr => by simpa [mergeUnion] using hr
  | a :: l, [], hl, _ => by simpa [mergeUnion] using hl
  | a :: l, b :: r, hl, hr => by
    cases hba : rowTupleLt b a with
    | true =>
      have hstep : mergeUnion (a :: l) (b :: r) = b :: mergeUnion (a :: l) r := by
        simp [mergeUnion, hba]
      rw [hstep, List.pairwise_cons]
      refine ⟨?_, sorted_mergeUnion (a :: l) r hl hr.of_cons⟩
      intro y hy
      rcases mem_mergeUnion.mp hy with hy | hy
      · rcases List.mem_cons.mp hy with rfl | hy
        · exact rowTupleLe_of_lt hba
        · exact rowTupleLe_trans b a y (rowTupleLe_of_lt hba)
            ((List.pairwise_cons.mp hl).1 y hy)
      · exact (List.pairwise_cons.mp hr).1 y hy
    | false =>
      cases hab : rowTupleLt a b with
      | true =>
        have hstep : mergeUnion (a :: l) (b :: r) = a :: mergeUnion l (b :: r) := by
          simp [mergeUnion, hba, hab]
        rw [hstep, List.pairwise_cons]
        refine ⟨?_, sorted_mergeUnion l (b :: r) hl.of_cons hr⟩
        intro y hy
        rcases mem_mergeUnion.mp hy with hy | hy
        · exact (List.pairwise_cons.mp hl).1 y hy
        · rcases List.mem_cons.mp hy with rfl | hy
          · exact rowTupleLe_of_lt hab
          · exact rowTupleLe_trans a b y (rowTupleLe_of_lt hab)
              ((List.pairwise_cons.mp hr).1 y hy)
      | false =>
        have heq : a = b := rowTupleLt_total hab hba
        subst heq
        have hstep : mergeUnion (a :: l) (a :: r) = a :: mergeUnion l r := by
          simp [mergeUnion, hba, hab]
        rw [hstep, List.pairwise_cons]
        refine ⟨?_, sorted_mergeUnion l r hl.of_cons hr.of_cons⟩
        intro y hy
        rcases mem_mergeUnion.mp hy with hy | hy
        · exact (List.pairwise_cons.mp hl).1 y hy
        · exact (List.pairwise_cons.mp hr).1 y hy
termination_by l r => l.length + r.length

/-- The sequence of row-id tuples `SetUnion::_on_execute` emits (through
`emit_row` into the per-segment result pos lists): sort each input's
reference-matrix rows via its virtual pos list, then merge. -/
def setUnionMergedRows {s : Nat} (left right : List (RowTuple s)) : List (RowTuple s) :=
  mergeUnion (sortRows left) (sortRows right)

/-- What the claim predicts for the output: the deduplicated union of the two
inputs' row-id tuples (each distinct tuple exactly once), in lexicographically
sorted order.  Stated from the claim's words, for comparison with the
source-derived `setUnionMergedRows`. -/
def claimedDedupSortedUnion {s : Nat} (left right : List (RowTuple s)) :
    List (RowTuple s) :=
  sortRows ((left ++ right).dedup)

/-- A one-segment row tuple, used as a concrete counterexample input. -/
def sampleTuple : RowTuple 1 := ⟨[(0, 0)], rfl⟩

/-- C1, counterexample: when one input holds the same row-id tuple twice, the
merge emits it twice (`std::set_union` keeps `max` of the multiplicities), so
the output is not the deduplicated union the claim describes. -/
theorem setUnion_not_dedup_union :
    setUnionMergedRows [sampleTuple, sampleTuple] [sampleTuple] ≠
      claimedDedupSortedUnion [sampleTuple, sampleTuple] [sampleTuple] := by
  have hsort2 : sortRows [sampleTuple, sampleTuple] = [sampleTuple, sampleTuple] := by
    simp [sortRows, insertRow, rowTupleLe, rowTupleLt_irrefl]
  have hsort1 : sortRows [sampleTuple] = [sampleTuple] := rfl
  have hmerge : setUnionMergedRows [sampleTuple, sampleTuple] [sampleTuple] =
      [sampleTuple, sampleTuple] := by
    rw [setUnionMergedRows, hsort2, hsort1]
    rw [show mergeUnion [sampleTuple, sampleTuple] [sampleTuple] =
        sampleTuple :: mergeUnion [sampleTuple] [] from by
      simp [mergeUnion, rowTupleLt_irrefl]]
    rw [show mergeUnion [sampleTuple] ([] : List (RowTuple 1)) = [sampleTuple] from by
      simp [mergeUnion]]
  rw [hmerge]
  have hded : claimedDedupSortedUnion [sampleTuple, sampleTuple] [sampleTuple] =
      [sampleTuple] := by
    rw [claimedDedupSortedUnion]
    norm_num [List.dedup_cons_of_mem, List.dedup_cons_of_not_mem]
    exact hsort1
  rw [hded]
  simp

/-- C1 (amended): for any two reference-matrix row sequences, the merged
output of `SetUnion` is lexicographically sorted and contains each row-id
tuple `max(left multiplicity, right multiplicity)` times — the
`std::set_union` semantics in which equal current tuples are emitted once
with both cursors advancing.  When neither input repeats a tuple internally
this is exactly the deduplicated union of the two inputs in sorted order. -/
theorem setUnion_merge_count_max {s : Nat} (left right : List (RowTuple s)) :
    (∀ x, (setUnionMergedRows left right).count x =
        max (left.count x) (right.count x)) ∧
      (setUnionMergedRows left right).Pairwise (fun x y => rowTupleLe x y = true) := by
  constructor
  · intro x
    rw [setUnionMergedRows,
      count_mergeUnion _ _ (sortRows_sorted left) (sortRows_sorted right) x,
      (sortRows_perm left).count_eq, (sortRows_perm right).count_eq]
  · exact sorted_mergeUnion _ _ (sortRows_sorted left) (sortRows_sorted right)

/-! ## Chunk emission (set_union.cpp lines 150–235)

`out_chunk_size = std::max(left.chunk_size(), right.chunk_size())`.  Each
emitted row increments `chunk_row_idx`; when it reaches `out_chunk_size` (and
that is non-zero) the accumulated pos-list rows become a chunk and the
accumulator is reset; after the loop a final partial chunk is emitted if any
rows remain. -/

def chunkEmit {α : Type} (c : Nat) : List α → List α → List (List α)
  | [], acc => if acc.isEmpty then [] else [acc]
  | x :: rest, acc =>
    let acc2 := acc ++ [x]
    if acc2.length = c ∧ c ≠ 0 then acc2 :: chunkEmit c rest []
    else chunkEmit c rest acc2

/-- The output chunks of `SetUnion` as lists of emitted rows. -/
def setUnionChunks {α : Type} (leftChunkSize rightChunkSize : Nat) (rows : List α) :
    List (List α) :=
  chunkEmit (max leftChunkSize rightChunkSize) rows []

theorem chunkEmit_join {α : Type} (c : Nat) : ∀ (rows acc : List α),
    (chunkEmit c rows acc).flatten = acc ++ rows
  | [], acc => by
    rw [chunkEmit]
    cases acc with
    | nil => simp
    | cons y ys => simp
  | x :: rest, acc => by
    rw [chunkEmit]
    split
    · simp [chunkEmit_join c rest []]
    · simp [chunkEmit_join c rest (acc ++ [x])]

theorem chunkEmit_zero {α : Type} : ∀ (rows acc : List α),
    chunkEmit 0 rows acc = if (acc ++ rows).isEmpty then [] else [acc ++ rows]
  | [], acc => by rw [chunkEmit, List.append_nil]
  | x :: rest, acc => by
    rw [chunkEmit]
    have : ¬((acc ++ [x]).length = 0 ∧ (0 : Nat) ≠ 0) := by simp
    rw [if_neg this, chunkEmit_zero rest (acc ++ [x])]
    simp

theorem chunkEmit_lengths {α : Type} {c : Nat} (hc : c ≠ 0) : ∀ (rows acc : List α),
    acc.length < c →
    (chunkEmit c rows acc).map List.length =
      List.replicate ((acc.length + rows.length) / c) c ++
        (if (acc.length + rows.length) % c = 0 then []
         else [(acc.length + rows.length) % c])
  | [], acc, hacc => by
    rw [chunkEmit]
    cases acc with
    | nil => simp
    | cons y ys =>
      have h1 : ((y :: ys).length + ([] : List α).length) / c = 0 :=
        Nat.div_eq_of_lt (by simpa using hacc)
      have h2 : ((y :: ys).length + ([] : List α).length) % c = (y :: ys).length :=
        Nat.mod_eq_of_lt (by simpa using hacc)
      rw [h1, h2]
      simp
  | x :: rest, acc, hacc => by
    rw [chunkEmit]
    split
    · rename_i hfull
      have hlen : acc.length + 1 = c := by simpa using hfull.1
      have ih := chunkEmit_lengths hc rest [] (by simp only [List.length_nil]; omega)
      simp only [List.map_cons, ih, List.length_nil, Nat.zero_add]
      have hT : acc.length + (x :: rest).length = c + rest.length := by
        simp [List.length_cons]
        omega
      rw [hT]
      have hdiv : (c + rest.length) / c = rest.length / c + 1 := by
        rw [Nat.add_comm c rest.length, Nat.add_div_right _ (Nat.pos_of_ne_zero hc)]
      have hmod : (c + rest.length) % c = rest.length % c := by
        rw [Nat.add_comm c rest.length, Nat.add_mod_right]
      rw [hdiv, hmod, List.replicate_succ]
      have hlenacc : (acc ++ [x]).length = c := by simpa using hfull.1
      simp [hlenacc]
    · rename_i hnotfull
      have hlt : (acc ++ [x]).length < c := by
        simp only [List.length_append, List.length_cons, List.length_nil] at hnotfull ⊢
        rcases Nat.lt_or_ge (acc.length + 1) c with h | h
        · simpa using h
        · exfalso
          exact hnotfull ⟨by omega, hc⟩
      have ih := chunkEmit_lengths hc rest (acc ++ [x]) hlt
      rw [ih]
      have : (acc ++ [x]).length + rest.length = acc.length + (x :: rest).length := by
        simp
        omega
      rw [this]

/-- C8: the `SetUnion` chunk-emission loop cuts the merged row sequence into
chunks of exactly `max(left chunk size, right chunk size)` rows, emits one
trailing partial chunk holding the remainder when it is non-zero, and with
chunk size 0 never emits an intermediate chunk, so all rows land in one
final chunk. -/
theorem setUnion_chunk_emission {α : Type} (leftChunkSize rightChunkSize : Nat)
    (rows : List α) :
    (setUnionChunks leftChunkSize rightChunkSize rows).flatten = rows ∧
      (max leftChunkSize rightChunkSize = 0 → rows ≠ [] →
        setUnionChunks leftChunkSize rightChunkSize rows = [rows]) ∧
      (max leftChunkSize rightChunkSize ≠ 0 →
        (setUnionChunks leftChunkSize rightChunkSize rows).map List.length =
          List.replicate (rows.length / max leftChunkSize rightChunkSize)
              (max leftChunkSize rightChunkSize) ++
            (if rows.length % max leftChunkSize rightChunkSize = 0 then []
             else [rows.length % max leftChunkSize rightChunkSize])) := by
  refine ⟨?_, ?_, ?_⟩
  · simpa using chunkEmit_join (max leftChunkSize rightChunkSize) rows []
  · intro hzero hne
    rw [setUnionChunks, hzero, chunkEmit_zero rows []]
    simp [hne]
  · intro hnz
    have := chunkEmit_lengths hnz rows [] (Nat.pos_of_ne_zero hnz)
    simpa using this

/-- C8, witness: chunk size `max(2, 3) = 3` over seven rows yields chunk
sizes `[3, 3, 1]`; chunk size `max(0, 0) = 0` over two rows yields a single
chunk. -/
theorem setUnion_chunk_emission_witness :
    (setUnionChunks 2 3 [10, 20, 30, 40, 50, 60, 70]).map List.length = [3, 3, 1] ∧
      setUnionChunks 0 0 [(1 : Nat), 2] = [[1, 2]] := by
  constructor
  · have h := (setUnion_chunk_emission 2 3
      [(10 : Nat), 20, 30, 40, 50, 60, 70]).2.2 (by decide)
    rw [h]
    decide
  · exact (setUnion_chunk_emission 0 0 [(1 : Nat), 2]).2.1 rfl (by decide)

/-! ## Dictionary encoding (dictionary_encoder.hpp)

`DictionaryEncoder::_encode` over a value column with values and parallel
null flags. -/

section DictionaryEncoder

variable {T : Type} [LinearOrder T]

/-- `std::sort(dictionary.begin(), dictionary.end())`: a sorted permutation,
modelled by insertion sort. -/
def insertLe (x : T) : List T → List T
  | [] => [x]
  | y :: ys => if x ≤ y then x :: y :: ys else y :: insertLe x ys

def sortLe (l : List T) : List T := l.foldr insertLe []

theorem insertLe_perm (x : T) (l : List T) : List.Perm (insertLe x l) (x :: l) := by
  induction l with
  | nil => rfl
  | cons y ys ih =>
    simp only [insertLe]
    split
    · rfl
    · exact ((ih.cons y).trans (List.Perm.swap x y ys))

theorem sortLe_perm (l : List T) : List.Perm (sortLe l) l := by
  induction l with
  | nil => rfl
  | cons y ys ih => exact (insertLe_perm y (sortLe ys)).trans (ih.cons y)

theorem mem_insertLe {x y : T} {l : List T} : y ∈ insertLe x l ↔ y = x ∨ y ∈ l := by
  rw [(insertLe_perm x l).mem_iff]
  simp

theorem pairwise_insertLe {x : T} {l : List T} (h : l.Pairwise (· ≤ ·)) :
    (insertLe x l).Pairwise (· ≤ ·) := by
  induction l with
  | nil => simp [insertLe]
  | cons y ys ih =>
    rw [List.pairwise_cons] at h
    simp only [insertLe]
    split
    · rename_i hxy
      rw [List.pairwise_cons]
      refine ⟨?_, List.pairwise_cons.mpr h⟩
      intro b hb
      rcases List.mem_cons.mp hb with rfl | hb
      · exact hxy
      · exact le_trans hxy (h.1 b hb)
    · rename_i hxy
      have hyx : y ≤ x := le_of_not_le hxy
      rw [List.pairwise_cons]
      refine ⟨?_, ih h.2⟩
      intro b hb
      rcases mem_insertLe.mp hb with rfl | hb
      · exact hyx
      · exact h.1 b hb

theorem sortLe_sorted (l : List T) : (sortLe l).Pairwise (· ≤ ·) := by
  induction l with
  | nil => exact List.Pairwise.nil
  | cons y ys ih => exact pairwise_insertLe ih

/-- `dictionary.erase(std::unique(...), dictionary.end())`: drop adjacent
duplicates. -/
def uniqueAdj : List T → List T
  | [] => []
  | [a] => [a]
  | a :: b :: rest => if a = b then uniqueAdj (b :: rest) else a :: uniqueAdj (b :: rest)

theorem mem_uniqueAdj : ∀ {l : List T} {x : T}, x ∈ uniqueAdj l ↔ x ∈ l
  | [], x => by simp [uniqueAdj]
  | [a], x => by simp [uniqueAdj]
  | a :: b :: rest, x => by
    rw [uniqueAdj]
    split
    · rename_i heq
      rw [mem_uniqueAdj (l := b :: rest)]
      subst heq
      simp
    · simp only [List.mem_cons, mem_uniqueAdj (l := b :: rest)]

theorem uniqueAdj_sublist : ∀ (l : List T), List.Sublist (uniqueAdj l) l
  | [] => List.Sublist.refl _
  | [a] => List.Sublist.refl _
  | a :: b :: rest => by
    rw [uniqueAdj]
    split
    · exact (uniqueAdj_sublist (b :: rest)).cons a
    · exact (uniqueAdj_sublist (b :: rest)).cons₂ a

theorem uniqueAdj_strict_sorted : ∀ {l : List T}, l.Pairwise (· ≤ ·) →
    (uniqueAdj l).Pairwise (· < ·)
  | [], _ => List.Pairwise.nil
  | [a], _ => List.pairwise_singleton _ a
  | a :: b :: rest, h => by
    rw [List.pairwise_cons] at h
    rw [uniqueAdj]
    split
    · exact uniqueAdj_strict_sorted h.2
    · rename_i hne
      rw [List.pairwise_cons]
      refine ⟨?_, uniqueAdj_strict_sorted h.2⟩
      intro y hy
      rcases List.mem_cons.mp (mem_uniqueAdj.mp hy) with hyb | hy
      · rw [hyb]
        exact lt_of_le_of_ne (h.1 b (List.mem_cons_self b rest)) hne
      · calc a < b := lt_of_le_of_ne (h.1 b (List.mem_cons_self b rest)) hne
          _ ≤ y := (List.pairwise_cons.mp h.2).1 y hy

/-- Dictionary construction (lines 26–47): copy the values, move the
NULL-flagged positions to the tail and erase them (the reverse-iterating swap
loop keeps exactly the multiset of non-null values, so it is modelled by
filtering on the null flags — order before sorting is immaterial), sort
ascending, unique adjacent, shrink. -/
def buildDictionary (values : List T) (nulls : List Bool) : List T :=
  uniqueAdj (sortLe (((values.zip nulls).filter (fun p => !p.2)).map Prod.fst))

theorem buildDictionary_sorted (values : List T) (nulls : List Bool) :
    (buildDictionary values nulls).Pairwise (· < ·) :=
  uniqueAdj_strict_sorted (sortLe_sorted _)

theorem mem_buildDictionary {values : List T} {nulls : List Bool} {v : T} :
    v ∈ buildDictionary values nulls ↔ (v, false) ∈ values.zip nulls := by
  rw [buildDictionary, mem_uniqueAdj, (sortLe_perm _).mem_iff, List.mem_map]
  constructor
  · rintro ⟨⟨w, b⟩, hmem, rfl⟩
    have := (List.mem_filter.mp hmem).2
    simp only [Bool.not_eq_true'] at this
    simpa [this] using (List.mem_filter.mp hmem).1
  · intro hmem
    exact ⟨(v, false), List.mem_filter.mpr ⟨hmem, by simp⟩, rfl⟩

/-- `DictionaryEncoder::_get_value_id`: the distance from the start of the
sorted dictionary to `std::lower_bound(dictionary, value)`, i.e. the length
of the maximal prefix of elements strictly below the value. -/
def lowerBoundIndex (d : List T) (v : T) : Nat :=
  (d.takeWhile (fun x => decide (x < v))).length

theorem lowerBoundIndex_le_length (d : List T) (v : T) :
    lowerBoundIndex d v ≤ d.length :=
  (List.takeWhile_sublist _).length_le

theorem getElem?_lowerBoundIndex : ∀ {d : List T}, d.Pairwise (· < ·) → ∀ {v : T},
    v ∈ d → d[lowerBoundIndex d v]? = some v
  | [], _, v, hv => absurd hv (List.not_mem_nil v)
  | a :: rest, hd, v, hv => by
    rw [List.pairwise_cons] at hd
    by_cases hav : a < v
    · have hvrest : v ∈ rest := by
        rcases List.mem_cons.mp hv with rfl | hv'
        · exact absurd hav (lt_irrefl v)
        · exact hv'
      have : lowerBoundIndex (a :: rest) v = lowerBoundIndex rest v + 1 := by
        simp [lowerBoundIndex, List.takeWhile, hav]
      rw [this]
      simpa using getElem?_lowerBoundIndex hd.2 hvrest
    · have hva : v = a := by
        rcases List.mem_cons.mp hv with rfl | hv'
        · rfl
        · exact absurd (hd.1 v hv') hav
      have : lowerBoundIndex (a :: rest) v = 0 := by
        simp [lowerBoundIndex, List.takeWhile, hav]
      rw [this]
      simp [hva]

end DictionaryEncoder

/-! ## Fixed-size byte-aligned width choice (dictionary_encoder.hpp 80–105) -/

inductive ZsType where
  | FixedSize1ByteAligned
  | FixedSize2ByteAligned
  | FixedSize4ByteAligned
deriving DecidableEq

/-- `std::numeric_limits<uintN_t>::max()` for the width's unsigned type. -/
def zsTypeMax : ZsType → Nat
  | .FixedSize1ByteAligned => 255
  | .FixedSize2ByteAligned => 65535
  | .FixedSize4ByteAligned => 4294967295

def zsTypeBytes : ZsType → Nat
  | .FixedSize1ByteAligned => 1
  | .FixedSize2ByteAligned => 2
  | .FixedSize4ByteAligned => 4

/-- `DictionaryEncoder::get_fixed_size_byte_aligned_encoding` (lines 97–105). -/
def get_fixed_size_byte_aligned_encoding (uniqueValuesCount : Nat) : ZsType :=
  if uniqueValuesCount ≤ 255 then ZsType.FixedSize1ByteAligned
  else if uniqueValuesCount ≤ 65535 then ZsType.FixedSize2ByteAligned
  else ZsType.FixedSize4ByteAligned

/-- The call site (line 81): the encoder passes `dictionary.size() + 1u` —
"We need to increment the dictionary size here because of possible null
values." -/
def chosenZsType (dictionarySize : Nat) : ZsType :=
  get_fixed_size_byte_aligned_encoding (dictionarySize + 1)

/-- What the claim predicts: the narrowest type whose maximum representable
value is at least `dictionary.size()` — 1 byte when the size is at most 255,
2 bytes when at most 65535, 4 bytes otherwise.  Stated from the claim's
words, for comparison with the source-derived `chosenZsType`. -/
def claimedZsType (dictionarySize : Nat) : ZsType :=
  if dictionarySize ≤ 255 then ZsType.FixedSize1ByteAligned
  else if dictionarySize ≤ 65535 then ZsType.FixedSize2ByteAligned
  else ZsType.FixedSize4ByteAligned

/-- C3, counterexample: at `dictionary.size() = 255` the claim predicts the
1-byte width (`255 ≤ 255`), but the code passes `255 + 1 = 256` to the width
chooser and picks the 2-byte width. -/
theorem chosenZsType_differs_at_255 :
    chosenZsType 255 ≠ claimedZsType 255 ∧
      chosenZsType 255 = ZsType.FixedSize2ByteAligned ∧
      claimedZsType 255 = ZsType.FixedSize1ByteAligned := by
  decide

/-- C3 (amended): the encoder picks the narrowest fixed-size byte-aligned
width whose maximum representable value is at least `dictionary.size() + 1`:
1 byte when `dictionary.size() ≤ 254`, 2 bytes when `dictionary.size()` is in
`[255, 65534]`, and 4 bytes otherwise.  The chosen width always accommodates
the largest stored index (the null index `dictionary.size()`), with one spare
value at the boundaries. -/
theorem chosenZsType_narrowest (n : Nat) :
    (chosenZsType n = ZsType.FixedSize1ByteAligned ↔ n ≤ 254) ∧
      (chosenZsType n = ZsType.FixedSize2ByteAligned ↔ 254 < n ∧ n ≤ 65534) ∧
      (chosenZsType n = ZsType.FixedSize4ByteAligned ↔ 65534 < n) ∧
      (n + 1 ≤ 4294967295 → n + 1 ≤ zsTypeMax (chosenZsType n)) ∧
      (∀ t : ZsType, n + 1 ≤ zsTypeMax t → zsTypeBytes (chosenZsType n) ≤ zsTypeBytes t) := by
  rw [chosenZsType, get_fixed_size_byte_aligned_encoding]
  by_cases h1 : n + 1 ≤ 255
  · rw [if_pos h1]
    refine ⟨by simp; omega, by simp; omega, by simp; omega,
      fun _ => by simp [zsTypeMax]; omega, ?_⟩
    intro t _
    cases t <;> simp [zsTypeBytes]
  · rw [if_neg h1]
    by_cases h2 : n + 1 ≤ 65535
    · rw [if_pos h2]
      refine ⟨by simp; omega, by simp; omega, by simp; omega,
        fun _ => by simp [zsTypeMax]; omega, ?_⟩
      intro t ht
      cases t with
      | FixedSize1ByteAligned =>
        simp [zsTypeMax] at ht
        omega
      | FixedSize2ByteAligned => simp [zsTypeBytes]
      | FixedSize4ByteAligned => simp [zsTypeBytes]
    · rw [if_neg h2]
      refine ⟨by simp; omega, by simp; omega, by simp; omega,
        fun hn => by simp [zsTypeMax]; omega, ?_⟩
      intro t ht
      cases t with
      | FixedSize1ByteAligned =>
        simp [zsTypeMax] at ht
        omega
      | FixedSize2ByteAligned =>
        simp [zsTypeMax] at ht
        omega
      | FixedSize4ByteAligned => simp [zsTypeBytes]

/-- C3, witness: at `dictionary.size() = 300` the chosen width is 2 bytes,
which is minimal among the widths whose maximum is at least 301. -/
theorem chosenZsType_narrowest_witness :
    chosenZsType 300 = ZsType.FixedSize2ByteAligned ∧
      zsTypeBytes (chosenZsType 300) ≤ zsTypeBytes ZsType.FixedSize4ByteAligned := by
  refine ⟨((chosenZsType_narrowest 300).2.1).mpr (by decide), ?_⟩
  exact (chosenZsType_narrowest 300).2.2.2.2 ZsType.FixedSize4ByteAligned (by decide)

/-- `encode_by_zs_type` for the fixed-size byte-aligned vectors: each 32-bit
index is cast to the chosen width's unsigned type (kept modulo 2^(8·bytes))
and read back by `get`. -/
def encodeFixedSizeByteAligned (t : ZsType) (av : List Nat) : List Nat :=
  av.map (fun v => v % (zsTypeMax t + 1))

/-- The result of `DictionaryEncoder::_encode`: `DictionaryColumn<T>(dictionary,
attribute_vector, ValueID{null_value_id})`, with the attribute vector stored
at the chosen fixed-size byte-aligned width. -/
structure DictionaryColumn (T : Type) where
  dictionary : List T
  attributeVector : List Nat
  nullValueId : Nat
  zsType : ZsType

/-- `DictionaryEncoder::_encode` (lines 21–88) over a value column given as a
value list and a parallel null-flag list (a non-nullable column is the
all-`false` flag case): build the sorted duplicate-free dictionary from the
non-null values, emit `lower_bound` indices for non-null rows and
`null_value_id = dictionary.size()` for null rows, and store the indices at
the width chosen for `dictionary.size() + 1`. -/
def dictionaryEncode {T : Type} [LinearOrder T] (values : List T) (nulls : List Bool) :
    DictionaryColumn T :=
  let dictionary := buildDictionary values nulls
  let nullValueId := dictionary.length
  let rawAttributeVector := (values.zip nulls).map
    (fun p => if p.2 then nullValueId else lowerBoundIndex dictionary p.1)
  let zsType := chosenZsType dictionary.length
  { dictionary := dictionary
    attributeVector := encodeFixedSizeByteAligned zsType rawAttributeVector
    nullValueId := nullValueId
    zsType := zsType }

/-- C2: dictionary encoding round-trips.  The dictionary is strictly
ascending (sorted and duplicate-free); a non-null row's stored attribute value
indexes the dictionary entry equal to the row's value; a null row's stored
attribute value is the null index `dictionary.size()`. -/
theorem dictionaryEncode_roundtrip {T : Type} [LinearOrder T]
    (values : List T) (nulls : List Bool) (hwidth : values.length ≤ 4294967294)
    (i : Nat) (v : T) (b : Bool)
    (hv : values[i]? = some v) (hb : nulls[i]? = some b) :
    (dictionaryEncode values nulls).dictionary.Pairwise (· < ·) ∧
      (dictionaryEncode values nulls).nullValueId =
        (dictionaryEncode values nulls).dictionary.length ∧
      (b = true → (dictionaryEncode values nulls).attributeVector[i]? =
        some (dictionaryEncode values nulls).dictionary.length) ∧
      (b = false → ∃ k, (dictionaryEncode values nulls).attributeVector[i]? = some k ∧
        (dictionaryEncode values nulls).dictionary[k]? = some v) := by
  have hzip : (values.zip nulls)[i]? = some (v, b) := by
    rw [List.getElem?_zip_eq_some]
    exact ⟨hv, hb⟩
  have hdictlen : (buildDictionary values nulls).length ≤ values.length := by
    calc (buildDictionary values nulls).length
        ≤ (sortLe (((values.zip nulls).filter (fun p => !p.2)).map Prod.fst)).length := by
          rw [buildDictionary]
          exact (uniqueAdj_sublist _).length_le
      _ = (((values.zip nulls).filter (fun p => !p.2)).map Prod.fst).length :=
          (sortLe_perm _).length_eq
      _ ≤ (values.zip nulls).length := by
          rw [List.length_map]
          exact (List.filter_sublist _).length_le
      _ ≤ values.length := by
          rw [List.length_zip]
          exact Nat.min_le_left _ _
  have hfit : ∀ m, m ≤ (buildDictionary values nulls).length →
      m % (zsTypeMax (chosenZsType (buildDictionary values nulls).length) + 1) = m := by
    intro m hm
    apply Nat.mod_eq_of_lt
    have := ((chosenZsType_narrowest (buildDictionary values nulls).length).2.2.2.1
      (by omega))
    omega
  have hav : (dictionaryEncode values nulls).attributeVector[i]? =
      some ((if b = true then (buildDictionary values nulls).length
             else lowerBoundIndex (buildDictionary values nulls) v) %
        (zsTypeMax (chosenZsType (buildDictionary values nulls).length) + 1)) := by
    show (encodeFixedSizeByteAligned _ _)[i]? = _
    rw [encodeFixedSizeByteAligned, List.getElem?_map, List.getElem?_map, hzip]
    rfl
  refine ⟨buildDictionary_sorted values nulls, rfl, ?_, ?_⟩
  · intro hbtrue
    subst hbtrue
    rw [hav, if_pos rfl, hfit _ (le_refl _)]
    rfl
  · intro hbfalse
    subst hbfalse
    have hvmem : v ∈ buildDictionary values nulls :=
      mem_buildDictionary.mpr (List.getElem?_mem hzip)
    refine ⟨lowerBoundIndex (buildDictionary values nulls) v, ?_, ?_⟩
    · rw [hav, if_neg (by simp), hfit _ (lowerBoundIndex_le_length _ _)]
    · exact getElem?_lowerBoundIndex (buildDictionary_sorted values nulls) hvmem

/-- C2, witness: encoding the value column `[2, NULL, 0, 0]` (values
`[2, 9, 0, 0]` with null flags `[false, true, false, false]`) yields the
dictionary `[0, 2]`, null index `2`, and round-trips rows 0 and 1. -/
theorem dictionaryEncode_roundtrip_witness :
    ((dictionaryEncode ([2, 9, 0, 0] : List Int)
        [false, true, false, false]).attributeVector[1]? =
      some (dictionaryEncode ([2, 9, 0, 0] : List Int)
        [false, true, false, false]).dictionary.length) ∧
      (∃ k, (dictionaryEncode ([2, 9, 0, 0] : List Int)
          [false, true, false, false]).attributeVector[0]? = some k ∧
        (dictionaryEncode ([2, 9, 0, 0] : List Int)
          [false, true, false, false]).dictionary[k]? = some 2) := by
  refine ⟨?_, ?_⟩
  · exact (dictionaryEncode_roundtrip [2, 9, 0, 0] [false, true, false, false]
      (by decide) 1 9 true rfl rfl).2.2.1 rfl
  · exact (dictionaryEncode_roundtrip [2, 9, 0, 0] [false, true, false, false]
      (by decide) 0 2 false rfl rfl).2.2.2 rfl

/-! ## Run-length column (run_length_column.cpp) -/

/-- `RunLengthColumn<T>`: run values, inclusive end positions per run, and the
designated NULL sentinel value. -/
structure RunLengthColumn (T : Type) where
  values : List T
  endPositions : List Nat
  nullValue : T

/-- `RunLengthColumn<T>::operator[]` (lines 28–39): `std::lower_bound` over
`end_positions` — on the sorted position list, the first index whose entry is
not below `chunk_offset` — then the run value at that index, `NULL` if it
equals the sentinel. -/
def runLengthLookup {T : Type} [DecidableEq T] (c : RunLengthColumn T)
    (chunkOffset : Nat) : Option T :=
  let index := (c.endPositions.takeWhile (fun e => decide (e < chunkOffset))).length
  match c.values[index]? with
  | none => none
  | some value => if value = c.nullValue then none else some value

/-- `RunLengthColumn<T>::size` (lines 41–45): `end_positions->back() + 1`
(the column asserts the position list is never empty). -/
def runLengthSize {T : Type} (c : RunLengthColumn T) : Nat :=
  c.endPositions.getLastD 0 + 1

theorem takeWhile_getElem?_sat {α : Type} {p : α → Bool} : ∀ (l : List α) (j : Nat),
    j < (l.takeWhile p).length → ∃ e, l[j]? = some e ∧ p e = true := by
  intro l
  induction l with
  | nil => intro j h; simp [List.takeWhile] at h
  | cons x rest ih =>
    intro j h
    cases hx : p x with
    | false => simp [List.takeWhile_cons, hx] at h
    | true =>
      simp only [List.takeWhile_cons, hx, if_true] at h
      cases j with
      | zero => exact ⟨x, by simp, hx⟩
      | succ j =>
        simp only [List.length_cons, Nat.succ_lt_succ_iff] at h
        obtain ⟨e, he, hpe⟩ := ih j h
        exact ⟨e, by simpa using he, hpe⟩

theorem takeWhile_getElem?_stop {α : Type} {p : α → Bool} : ∀ (l : List α),
    (l.takeWhile p).length < l.length →
    ∃ e, l[(l.takeWhile p).length]? = some e ∧ p e = false := by
  intro l
  induction l with
  | nil => intro h; simp at h
  | cons x rest ih =>
    intro h
    cases hx : p x with
    | false =>
      simp only [List.takeWhile_cons, hx]
      exact ⟨x, by simp, hx⟩
    | true =>
      simp only [List.takeWhile_cons, hx, if_true] at h ⊢
      simp only [List.length_cons, Nat.succ_lt_succ_iff] at h
      obtain ⟨e, he, hpe⟩ := ih h
      exact ⟨e, by simpa using he, hpe⟩

/-- C7: on a run-length column whose end positions are strictly increasing
and end at `size − 1`, `size()` is the last end position plus one, and
reading a row `r` below `size` finds the first index `k` whose end position
is at least `r` (all earlier end positions are below `r`) and returns the run
value there — `NULL` exactly when that value is the sentinel. -/
theorem runLength_lookup_spec {T : Type} [DecidableEq T] (c : RunLengthColumn T)
    (_hsorted : c.endPositions.Pairwise (· < ·)) (hne : c.endPositions ≠ [])
    (hlen : c.values.length = c.endPositions.length)
    (r : Nat) (hr : r < runLengthSize c) :
    runLengthSize c = c.endPositions.getLast hne + 1 ∧
      ∃ (k : Nat) (v : T) (e : Nat),
        (∀ j, j < k → ∃ ej, c.endPositions[j]? = some ej ∧ ej < r) ∧
        c.endPositions[k]? = some e ∧ r ≤ e ∧
        c.values[k]? = some v ∧
        runLengthLookup c r = (if v = c.nullValue then none else some v) := by
  have hsize : runLengthSize c = c.endPositions.getLast hne + 1 := by
    rw [runLengthSize, List.getLastD_eq_getLast?, List.getLast?_eq_getLast _ hne]
    rfl
  refine ⟨hsize, ?_⟩
  set k := (c.endPositions.takeWhile (fun e => decide (e < r))).length with hk
  have hkle : k ≤ c.endPositions.length := (List.takeWhile_sublist _).length_le
  have hklt : k < c.endPositions.length := by
    rcases Nat.lt_or_ge k c.endPositions.length with h | h
    · exact h
    · exfalso
      have hkeq : k = c.endPositions.length := le_antisymm hkle h
      have hfull : c.endPositions.takeWhile (fun e => decide (e < r)) =
          c.endPositions :=
        (List.takeWhile_sublist _).eq_of_length hkeq
      have hlastmem : c.endPositions.getLast hne ∈
          c.endPositions.takeWhile (fun e => decide (e < r)) := by
        rw [hfull]
        exact List.getLast_mem hne
      have hlast_lt : c.endPositions.getLast hne < r := by
        simpa using List.mem_takeWhile_imp hlastmem
      rw [hsize] at hr
      omega
  obtain ⟨e, he, hpe⟩ := takeWhile_getElem?_stop (p := fun e => decide (e < r))
    c.endPositions hklt
  have hvklt : k < c.values.length := by rw [hlen]; exact hklt
  have hvk : c.values[k]? = some (c.values.get ⟨k, hvklt⟩) := by
    rw [List.getElem?_eq_getElem hvklt]
    rfl
  refine ⟨k, c.values.get ⟨k, hvklt⟩, e, ?_, he, by simpa using hpe, hvk, ?_⟩
  · intro j hj
    obtain ⟨ej, hej, hpj⟩ := takeWhile_getElem?_sat c.endPositions j hj
    exact ⟨ej, hej, by simpa using hpj⟩
  · rw [runLengthLookup]
    simp only [← hk, hvk]

/-- Concrete run-length column for the C7 witness: runs `10, NULL, 20` with
sentinel `99` and end positions `1, 3, 5`. -/
def sampleRunLength : RunLengthColumn Int :=
  { values := [10, 99, 20], endPositions := [1, 3, 5], nullValue := 99 }

/-- C7, witness: `runLength_lookup_spec` applied to `sampleRunLength` at
row 2 (which falls in the NULL run), together with the concrete evaluations
`size = 6` and `lookup 2 = NULL`. -/
theorem runLength_lookup_spec_witness :
    (runLengthSize sampleRunLength =
        sampleRunLength.endPositions.getLast (by decide) + 1 ∧
      ∃ (k : Nat) (v : Int) (e : Nat),
        (∀ j, j < k → ∃ ej, sampleRunLength.endPositions[j]? = some ej ∧
          ej < 2) ∧
        sampleRunLength.endPositions[k]? = some e ∧ 2 ≤ e ∧
        sampleRunLength.values[k]? = some v ∧
        runLengthLookup sampleRunLength 2 =
          (if v = sampleRunLength.nullValue then none else some v)) ∧
      runLengthSize sampleRunLength = 6 ∧
      runLengthLookup sampleRunLength 2 = none :=
  ⟨runLength_lookup_spec sampleRunLength (by decide) (by decide) (by decide)
      2 (by decide),
    by decide, by decide⟩

/-! ## Expressions (base_expression.cpp)

`BaseExpression<DerivedExpressionType>` carries: the expression type tag, an
optional value, an optional aggregate function, an optional table name, an
optional alias, an optional value placeholder, the aggregate-function
argument list, and optional left/right children.  The value variant is
modelled with NULL, integer and string alternatives (the floating-point
alternatives of `AllTypeVariant` play no role in the claims under
verification). -/

inductive ExpressionType where
  | Literal | Star | Placeholder | Column | Function | Select
  | Subtraction | Addition | Multiplication | Division | Modulo | Power
  | Equals | NotEquals | LessThan | LessThanEquals | GreaterThan | GreaterThanEquals
  | Like | NotLike | And | Or | Between | Not | Exists
deriving DecidableEq

inductive AggregateFunction where
  | Min | Max | Sum | Avg | Count
deriving DecidableEq

inductive Value where
  | nullValue
  | intVal (i : Int)
  | strVal (s : String)
deriving DecidableEq

inductive Expr where
  | mk (type : ExpressionType) (value : Option Value)
      (aggregateFunction : Option AggregateFunction)
      (tableName : Option String) (aliasName : Option String)
      (valuePlaceholder : Option Nat)
      (aggregateFunctionArguments : List Expr)
      (leftChild rightChild : Option Expr)

def Expr.typeOf : Expr → ExpressionType
  | .mk t _ _ _ _ _ _ _ _ => t

def Expr.valuePlaceholderOf : Expr → Option Nat
  | .mk _ _ _ _ _ ph _ _ _ => ph

def Expr.aggregateFunctionArgumentsOf : Expr → List Expr
  | .mk _ _ _ _ _ _ args _ _ => args

/-- `BaseExpression::deep_copy` (lines 197–220): construct a fresh node, copy
`_value`, `_aggregate_function`, `_table_name`, `_alias`,
`_value_placeholder`, deep-copy every aggregate-function argument, deep-copy
the children. -/
def Expr.deepCopy : Expr → Expr
  | .mk t v af tn al ph args l r =>
    Expr.mk t v af tn al ph (args.attach.map (fun a => Expr.deepCopy a.1))
      (match l with
       | some e => some (Expr.deepCopy e)
       | none => none)
      (match r with
       | some e => some (Expr.deepCopy e)
       | none => none)
termination_by e => sizeOf e
decreasing_by
  all_goals simp_wf
  · have := List.sizeOf_lt_of_mem a.2
    omega
  · omega
  · omega

mutual

/-- `BaseExpression::operator==` (lines 473–498): compare the children (via
`compare_expression_ptrs`: both engaged → compare recursively, otherwise both
must be disengaged), then the aggregate-function argument lists (size, then
element-wise), then `_type`, `_value`, `_aggregate_function`, `_table_name`
and `_alias`.  The `_value_placeholder` field is not compared. -/
def exprEq : Expr → Expr → Bool
  | .mk t v af tn al _ args l r, .mk t2 v2 af2 tn2 al2 _ args2 l2 r2 =>
    exprOptEq l l2 && exprOptEq r r2 && exprListEq args args2 &&
      decide (t = t2) && decide (v = v2) && decide (af = af2) &&
      decide (tn = tn2) && decide (al = al2)

def exprListEq : List Expr → List Expr → Bool
  | [], [] => true
  | a :: as, b :: bs => exprEq a b && exprListEq as bs
  | _, _ => false

def exprOptEq : Option Expr → Option Expr → Bool
  | some a, some b => exprEq a b
  | none, none => true
  | _, _ => false

end

/-- The placeholder-erasing normal form: `exprEq` is proved below to be
equality of `scrub`-images, which makes explicit that `operator==` compares
every field except `_value_placeholder`. -/
def Expr.scrub : Expr → Expr
  | .mk t v af tn al _ args l r =>
    Expr.mk t v af tn al none (args.attach.map (fun a => Expr.scrub a.1))
      (match l with
       | some e => some (Expr.scrub e)
       | none => none)
      (match r with
       | some e => some (Expr.scrub e)
       | none => none)
termination_by e => sizeOf e
decreasing_by
  all_goals simp_wf
  · have := List.sizeOf_lt_of_mem a.2
    omega
  · omega
  · omega

theorem exprOptEq_iff_of (l l2 : Option Expr)
    (IH : ∀ e e2, l = some e → (exprEq e e2 = true ↔ Expr.scrub e = Expr.scrub e2)) :
    exprOptEq l l2 = true ↔ l.map Expr.scrub = l2.map Expr.scrub := by
  cases l with
  | none =>
    cases l2 with
    | none => simp [exprOptEq]
    | some e2 => simp [exprOptEq]
  | some e =>
    cases l2 with
    | none => simp [exprOptEq]
    | some e2 =>
      rw [show Option.map Expr.scrub (some e) = some (Expr.scrub e) from rfl,
        show Option.map Expr.scrub (some e2) = some (Expr.scrub e2) from rfl]
      simp only [exprOptEq, Option.some.injEq]
      exact IH e e2 rfl

theorem exprListEq_iff_of : ∀ (as bs : List Expr),
    (∀ e, e ∈ as → ∀ e2, exprEq e e2 = true ↔ Expr.scrub e = Expr.scrub e2) →
    (exprListEq as bs = true ↔ as.map Expr.scrub = bs.map Expr.scrub)
  | [], [], _ => by simp [exprListEq]
  | [], b :: bs, _ => by simp [exprListEq]
  | a :: as, [], _ => by simp [exprListEq]
  | a :: as, b :: bs, IH => by
    simp only [exprListEq, Bool.and_eq_true, List.map_cons, List.cons.injEq]
    constructor
    · rintro ⟨h1, h2⟩
      exact ⟨(IH a (List.mem_cons_self a as) b).mp h1,
        (exprListEq_iff_of as bs (fun e he e2 => IH e (List.mem_cons_of_mem a he) e2)).mp h2⟩
    · rintro ⟨h1, h2⟩
      exact ⟨(IH a (List.mem_cons_self a as) b).mpr h1,
        (exprListEq_iff_of as bs (fun e he e2 => IH e (List.mem_cons_of_mem a he) e2)).mpr h2⟩

theorem exprEq_iff_scrub_aux : ∀ (n : Nat) (a b : Expr), sizeOf a ≤ n →
    (exprEq a b = true ↔ Expr.scrub a = Expr.scrub b) := by
  intro n
  induction n with
  | zero =>
    intro a b h
    cases a with
    | mk t v af tn al ph args l r => simp at h
  | succ n ihn =>
    intro a b h
    cases a with
    | mk t v af tn al ph args l r =>
      cases b with
      | mk t2 v2 af2 tn2 al2 ph2 args2 l2 r2 =>
        simp only [Expr.mk.sizeOf_spec] at h
        have hargs : ∀ e, e ∈ args → ∀ e2,
            exprEq e e2 = true ↔ Expr.scrub e = Expr.scrub e2 := by
          intro e he e2
          have := List.sizeOf_lt_of_mem he
          exact ihn e e2 (by omega)
        have hl : ∀ e e2, l = some e →
            (exprEq e e2 = true ↔ Expr.scrub e = Expr.scrub e2) := by
          intro e e2 hle
          subst hle
          have : sizeOf (some e) = 1 + sizeOf e := by simp
          exact ihn e e2 (by omega)
        have hr : ∀ e e2, r = some e →
            (exprEq e e2 = true ↔ Expr.scrub e = Expr.scrub e2) := by
          intro e e2 hre
          subst hre
          have : sizeOf (some e) = 1 + sizeOf e := by simp
          exact ihn e e2 (by omega)
        have hscruba : Expr.scrub (Expr.mk t v af tn al ph args l r) =
            Expr.mk t v af tn al none (args.map Expr.scrub)
              (l.map Expr.scrub) (r.map Expr.scrub) := by
          rw [Expr.scrub.eq_def]
          cases l <;> cases r <;> simp [List.attach_map_val]
        have hscrubb : Expr.scrub (Expr.mk t2 v2 af2 tn2 al2 ph2 args2 l2 r2) =
            Expr.mk t2 v2 af2 tn2 al2 none (args2.map Expr.scrub)
              (l2.map Expr.scrub) (r2.map Expr.scrub) := by
          rw [Expr.scrub.eq_def]
          cases l2 <;> cases r2 <;> simp [List.attach_map_val]
        simp only [exprEq, Bool.and_eq_true, decide_eq_true_eq, hscruba, hscrubb,
          Expr.mk.injEq]
        rw [exprOptEq_iff_of l l2 hl, exprOptEq_iff_of r r2 hr,
          exprListEq_iff_of args args2 hargs]
        tauto

theorem exprEq_iff_scrub (a b : Expr) :
    exprEq a b = true ↔ Expr.scrub a = Expr.scrub b :=
  exprEq_iff_scrub_aux (sizeOf a) a b (le_refl _)

theorem deepCopy_eq_self_aux : ∀ (n : Nat) (e : Expr), sizeOf e ≤ n →
    Expr.deepCopy e = e := by
  intro n
  induction n with
  | zero =>
    intro e h
    cases e with
    | mk t v af tn al ph args l r => simp at h
  | succ n ihn =>
    intro e h
    cases e with
    | mk t v af tn al ph args l r =>
      simp only [Expr.mk.sizeOf_spec] at h
      have hstep : Expr.deepCopy (Expr.mk t v af tn al ph args l r) =
          Expr.mk t v af tn al ph (args.attach.map (fun a => Expr.deepCopy a.1))
            (l.map Expr.deepCopy) (r.map Expr.deepCopy) := by
        rw [Expr.deepCopy.eq_def]
        cases l <;> cases r <;> simp
      have hargs : args.attach.map (fun a => Expr.deepCopy a.1) = args := by
        have : args.attach.map (fun a => Expr.deepCopy a.1) =
            args.attach.map (fun a => a.1) := by
          apply List.map_congr_left
          intro x _
          have := List.sizeOf_lt_of_mem x.2
          exact ihn x.1 (by omega)
        rw [this, List.attach_map_subtype_val]
      have hl : l.map Expr.deepCopy = l := by
        cases l with
        | none => rfl
        | some e' =>
          have hs : sizeOf (some e') = 1 + sizeOf e' := by simp
          show some (Expr.deepCopy e') = some e'
          rw [ihn e' (by omega)]
      have hr : r.map Expr.deepCopy = r := by
        cases r with
        | none => rfl
        | some e' =>
          have hs : sizeOf (some e') = 1 + sizeOf e' := by simp
          show some (Expr.deepCopy e') = some e'
          rw [ihn e' (by omega)]
      rw [hstep, hargs, hl, hr]

/-- `deep_copy` reconstructs every field, children and argument lists
recursively, so in the value model it is the identity. -/
theorem deepCopy_eq_self (e : Expr) : Expr.deepCopy e = e :=
  deepCopy_eq_self_aux (sizeOf e) e (le_refl _)

/-- C9: `deep_copy` yields an expression structurally equal to the original,
and structural equality of expressions (`operator==`) is reflexive, symmetric
and transitive. -/
theorem expr_deepCopy_equal_and_equivalence :
    (∀ e : Expr, exprEq (Expr.deepCopy e) e = true) ∧
      (∀ e : Expr, exprEq e e = true) ∧
      (∀ a b : Expr, exprEq a b = true → exprEq b a = true) ∧
      (∀ a b c : Expr, exprEq a b = true → exprEq b c = true →
        exprEq a c = true) := by
  refine ⟨?_, ?_, ?_, ?_⟩
  · intro e
    rw [deepCopy_eq_self, exprEq_iff_scrub]
  · intro e
    rw [exprEq_iff_scrub]
  · intro a b hab
    rw [exprEq_iff_scrub] at hab ⊢
    exact hab.symm
  · intro a b c hab hbc
    rw [exprEq_iff_scrub] at hab hbc ⊢
    exact hab.trans hbc

/-- `BaseExpression::create_value_placeholder` (lines 515–521): a fresh
`Placeholder`-typed expression whose `_value_placeholder` is the given index
and whose other optional fields stay disengaged. -/
def Expr.createValuePlaceholder (vp : Nat) : Expr :=
  Expr.mk ExpressionType.Placeholder none none none none (some vp) [] none none

/-- Replace only the `_value_placeholder` field of an expression. -/
def Expr.withValuePlaceholder : Expr → Option Nat → Expr
  | .mk t v af tn al _ args l r, ph => Expr.mk t v af tn al ph args l r

/-- C10: `operator==` never inspects `_value_placeholder` — changing only
that field preserves equality, two `Placeholder` expressions that differ only
in their placeholder index compare equal — while `deep_copy` does copy the
placeholder index. -/
theorem exprEq_ignores_value_placeholder :
    (∀ (e : Expr) (ph : Option Nat), exprEq (e.withValuePlaceholder ph) e = true) ∧
      (∀ p q : Nat, exprEq (Expr.createValuePlaceholder p)
        (Expr.createValuePlaceholder q) = true) ∧
      (∀ p : Nat, (Expr.deepCopy (Expr.createValuePlaceholder p)).valuePlaceholderOf =
        some p) := by
  refine ⟨?_, ?_, ?_⟩
  · intro e ph
    rw [exprEq_iff_scrub]
    cases e with
    | mk t v af tn al ph0 args l r =>
      rw [Expr.withValuePlaceholder]
      rw [Expr.scrub.eq_def, Expr.scrub.eq_def]
  · intro p q
    rw [exprEq_iff_scrub, Expr.createValuePlaceholder, Expr.createValuePlaceholder]
    rw [Expr.scrub.eq_def, Expr.scrub.eq_def]
  · intro p
    rw [deepCopy_eq_self]
    rfl

/-! ## SQL translation (sql_translator.cpp)

The hsql AST is external (spec §6): statements and expressions arrive with
kinds `literal`, `column reference`, `star`, `function reference` and binary
`operator`.  Modelled from the spec: the AST node carries an optional alias;
aggregate-function references carry the aggregate kind and one argument.
Column resolution against a node's output columns
(`find_column_origin_by_named_column_reference`) is modelled as name lookup
in the ordered list of input column names, a column origin being the index of
the defining column. -/

inductive ScanType where
  | OpEquals | OpNotEquals | OpLessThan | OpLessThanEquals
  | OpGreaterThan | OpGreaterThanEquals | OpBetween | OpLike | OpNotLike
deriving DecidableEq

inductive HsqlOperatorType where
  | kOpEquals | kOpNotEquals | kOpGreater | kOpGreaterEq | kOpLess | kOpLessEq
  | kOpBetween | kOpLike | kOpNotLike | kOpAnd | kOpOr
deriving DecidableEq

/-- `translate_operator_type_to_scan_type` (lines 41–53): the supported
operator map; anything else trips the debug assertion ("Filter expression
clause operator is not yet supported."), modelled as `none`. -/
def translate_operator_type_to_scan_type : HsqlOperatorType → Option ScanType
  | .kOpEquals => some ScanType.OpEquals
  | .kOpNotEquals => some ScanType.OpNotEquals
  | .kOpGreater => some ScanType.OpGreaterThan
  | .kOpGreaterEq => some ScanType.OpGreaterThanEquals
  | .kOpLess => some ScanType.OpLessThan
  | .kOpLessEq => some ScanType.OpLessThanEquals
  | .kOpBetween => some ScanType.OpBetween
  | .kOpLike => some ScanType.OpLike
  | .kOpNotLike => some ScanType.OpNotLike
  | _ => none

/-- `get_scan_type_for_reverse_order` (lines 55–80): when the operand sides
are switched, `>` and `<` swap, `>=` and `<=` swap, every other scan type is
returned unchanged (the map lookup misses). -/
def get_scan_type_for_reverse_order : ScanType → ScanType
  | ScanType.OpGreaterThan => ScanType.OpLessThan
  | ScanType.OpLessThan => ScanType.OpGreaterThan
  | ScanType.OpGreaterThanEquals => ScanType.OpLessThanEquals
  | ScanType.OpLessThanEquals => ScanType.OpGreaterThanEquals
  | s => s

inductive HsqlExpr where
  | literalInt (i : Int) (aliasName : Option String)
  | columnRef (name : String) (aliasName : Option String)
  | star
  | functionRef (fn : AggregateFunction) (arg : HsqlExpr) (aliasName : Option String)
  | operatorExpr (op : HsqlOperatorType) (expr expr2 : HsqlExpr)

/-- A column origin, identified by the defining column's index. -/
abbrev ColumnOrigin := Nat

inductive AllParameterVariant where
  | value (v : Value)
  | columnOrigin (c : ColumnOrigin)
deriving DecidableEq

/-- `HSQLExprTranslator::to_all_parameter_variant` on the value operand;
modelled from the spec for the literal case (§3: a parameter value is a typed
value, a column reference, or a placeholder). -/
def toAllParameterVariant : HsqlExpr → Option AllParameterVariant
  | .literalInt i _ => some (AllParameterVariant.value (Value.intVal i))
  | _ => none

/-- The `refers_to_column` lambda of `_translate_predicate` (lines 838–841):
a column reference always; a function reference only when
`allow_function_columns` is set (the HAVING path). -/
def refersToColumn (allowFunctionColumns : Bool) : HsqlExpr → Bool
  | .columnRef _ _ => true
  | .functionRef _ _ _ => allowFunctionColumns
  | _ => false

/-- `PredicateNode(column_id, scan_type, value, value2)`. -/
structure PredicateNode where
  column : ColumnOrigin
  scanType : ScanType
  value : AllParameterVariant
  value2 : Option Value
deriving DecidableEq

/-- `SQLTranslator::_translate_predicate` (lines 799–915) for binary
comparison predicates (the BETWEEN branch, lines 857–879, reads the
argument list instead of `expr2` and is embedded separately by the claim it
concerns): determine the side that refers to a column; if only the right
side does, switch the operands and remap the scan type for reverse order;
the other side becomes the scan value. -/
def translatePredicateComparison (allowFunctionColumns : Bool)
    (resolveColumn : HsqlExpr → ColumnOrigin) (op : HsqlOperatorType)
    (e1 e2 : HsqlExpr) : Except String PredicateNode :=
  match translate_operator_type_to_scan_type op with
  | none => Except.error "Filter expression clause operator is not yet supported."
  | some scanType0 =>
    if scanType0 = ScanType.OpBetween then
      Except.error "BETWEEN takes its operands from the expression list"
    else if refersToColumn allowFunctionColumns e1 then
      match (if refersToColumn allowFunctionColumns e2 then
          some (AllParameterVariant.columnOrigin (resolveColumn e2))
        else toAllParameterVariant e2) with
      | none => Except.error "unsupported value operand"
      | some value =>
        Except.ok
          { column := resolveColumn e1, scanType := scanType0,
            value := value, value2 := none }
    else if refersToColumn allowFunctionColumns e2 then
      match toAllParameterVariant e1 with
      | none => Except.error "unsupported value operand"
      | some value =>
        Except.ok
          { column := resolveColumn e2,
            scanType := get_scan_type_for_reverse_order scanType0,
            value := value, value2 := none }
    else Except.error "One side of the expression has to refer to a column."

/-- C5: when only the right operand of a comparison refers to a
column/aggregate, the translator swaps the operands and remaps the scan type
— exchanging `>` with `<` and `>=` with `<=`, leaving `=` and `!=` unchanged
— producing a predicate on the right operand's column with the left operand
as value. -/
theorem translate_predicate_reverse_order :
    (∀ (allowFunctionColumns : Bool) (resolveColumn : HsqlExpr → ColumnOrigin)
        (op : HsqlOperatorType) (scanType0 : ScanType) (e1 e2 : HsqlExpr)
        (v : AllParameterVariant),
      translate_operator_type_to_scan_type op = some scanType0 →
      scanType0 ≠ ScanType.OpBetween →
      refersToColumn allowFunctionColumns e1 = false →
      refersToColumn allowFunctionColumns e2 = true →
      toAllParameterVariant e1 = some v →
      translatePredicateComparison allowFunctionColumns resolveColumn op e1 e2 =
        Except.ok
          { column := resolveColumn e2,
            scanType := get_scan_type_for_reverse_order scanType0,
            value := v, value2 := none }) ∧
      get_scan_type_for_reverse_order ScanType.OpGreaterThan = ScanType.OpLessThan ∧
      get_scan_type_for_reverse_order ScanType.OpLessThan = ScanType.OpGreaterThan ∧
      get_scan_type_for_reverse_order ScanType.OpGreaterThanEquals =
        ScanType.OpLessThanEquals ∧
      get_scan_type_for_reverse_order ScanType.OpLessThanEquals =
        ScanType.OpGreaterThanEquals ∧
      get_scan_type_for_reverse_order ScanType.OpEquals = ScanType.OpEquals ∧
      get_scan_type_for_reverse_order ScanType.OpNotEquals = ScanType.OpNotEquals := by
  refine ⟨?_, rfl, rfl, rfl, rfl, rfl, rfl⟩
  intro allowFunctionColumns resolveColumn op scanType0 e1 e2 v hop hnb h1 h2 hval
  rw [translatePredicateComparison, hop]
  simp only [if_neg hnb, h1, h2, hval]
  rfl

/-- C5, witness: translating `WHERE 5 > a` (literal on the left, column on
the right) produces `(column = a, scan_type = OpLessThan, value = 5)`. -/
theorem translate_predicate_reverse_order_witness :
    translatePredicateComparison false (fun _ => 0) HsqlOperatorType.kOpGreater
        (HsqlExpr.literalInt 5 none) (HsqlExpr.columnRef "a" none) =
      Except.ok
        { column := 0, scanType := ScanType.OpLessThan,
          value := AllParameterVariant.value (Value.intVal 5), value2 := none } :=
  translate_predicate_reverse_order.1 false (fun _ => 0) HsqlOperatorType.kOpGreater
    ScanType.OpGreaterThan (HsqlExpr.literalInt 5 none) (HsqlExpr.columnRef "a" none)
    (AllParameterVariant.value (Value.intVal 5)) rfl (by decide) rfl rfl rfl

/-! ## Aggregate translation (`SQLTranslator::_translate_aggregate`, lines 541–706) -/

/-- hsql `GroupByDescription`: the group-by column names (the source asserts
each entry is a column reference) and the optional HAVING expression
(consulted only when a GROUP BY is present: `has_having = group_by &&
group_by->having`). -/
structure GroupByDescription where
  columns : List String
  having : Option HsqlExpr

/-- Resolution of the group-by columns against the groupby-aliasing
projection (lines 595–607).  The aliasing node projects every input column
in order, so a name resolves to the index of the defining input column; an
unresolvable name trips "Couldn't resolve groupby column.". -/
def resolveGroupByColumns (inputColumns : List String) :
    List String → Except String (List ColumnOrigin)
  | [] => Except.ok []
  | n :: rest =>
    match inputColumns.indexOf? n with
    | none => Except.error "Couldn't resolve groupby column."
    | some origin =>
      match resolveGroupByColumns inputColumns rest with
      | Except.error e => Except.error e
      | Except.ok others => Except.ok (origin :: others)

/-- The SELECT-list loop (lines 621–657).  Returns the aggregate expressions
of the SELECT list in order and `output_columns`: for an aggregate item, the
running `current_aggregate_column_id` (started at the group-by count); for a
column item, the column id that `find_output_column_id_by_column_origin`
yields on the groupby-aliasing node — the index of the defining input
column.  A function reference is accepted unconditionally; a column
reference requires a GROUP BY clause and membership of its origin in the
group-by list; every other item kind fails with "Unsupported item in
projection list for AggregateOperator.". -/
def processSelectList (toLqp : HsqlExpr → Expr) (inputColumns : List String)
    (groupByOrigins : Option (List ColumnOrigin)) :
    List HsqlExpr → Nat → Except String (List Expr × List (Nat × Option String))
  | [], _ => Except.ok ([], [])
  | item :: rest, currentAggregateColumnId =>
    match item with
    | HsqlExpr.functionRef fn arg al =>
      match processSelectList toLqp inputColumns groupByOrigins rest
          (currentAggregateColumnId + 1) with
      | Except.error e => Except.error e
      | Except.ok (aggs, outs) =>
        Except.ok (toLqp (HsqlExpr.functionRef fn arg al) :: aggs,
          (currentAggregateColumnId, al) :: outs)
    | HsqlExpr.columnRef name al =>
      match groupByOrigins with
      | none => Except.error
          "SELECT list of aggregate contains a column, but the query does not have a GROUP BY clause."
      | some origins =>
        match inputColumns.indexOf? name with
        | none => Except.error "Couldn't resolve groupby column."
        | some origin =>
          if origin ∈ origins then
            match processSelectList toLqp inputColumns groupByOrigins rest
                currentAggregateColumnId with
            | Except.error e => Except.error e
            | Except.ok (aggs, outs) => Except.ok (aggs, (origin, al) :: outs)
          else Except.error ("Column \x27" ++ name ++
            "\x27 is specified in SELECT list, but not in GROUP BY clause.")
    | _ => Except.error "Unsupported item in projection list for AggregateOperator."

/-- `SQLTranslator::_retrieve_having_aggregates` (lines 512–539): collect the
translations of every function reference in the HAVING expression tree that
translates to a `Function` expression, left subtree first. -/
def retrieveHavingAggregates (toLqp : HsqlExpr → Expr) : HsqlExpr → List Expr
  | HsqlExpr.functionRef fn arg al =>
    let translated := toLqp (HsqlExpr.functionRef fn arg al)
    if translated.typeOf = ExpressionType.Function then [translated] else []
  | HsqlExpr.operatorExpr _ e1 e2 =>
    retrieveHavingAggregates toLqp e1 ++ retrieveHavingAggregates toLqp e2
  | _ => []

/-- The HAVING merge loop (lines 662–676): append each HAVING aggregate that
no current aggregate expression equals (`operator==`). -/
def appendHavingAggregates (aggregateExpressions : List Expr)
    (havingAggregates : List Expr) : List Expr :=
  havingAggregates.foldl
    (fun acc havingExpr =>
      if acc.any (fun e => exprEq e havingExpr) then acc else acc ++ [havingExpr])
    aggregateExpressions

/-- One output column of the AggregateNode.  Modelled from the spec:
`AggregateNode` is not under src/; spec §4.5 (and the source comment at lines
609–612) says it "outputs all groupby columns first, and then all
aggregates", so output id `i` denotes the `i`-th group-by column when
`i < groupbys.length` and aggregate `i - groupbys.length` otherwise. -/
def aggregateNodeOutput (groupByColumnOrigins : List ColumnOrigin)
    (aggregateExpressions : List Expr) : List (Sum ColumnOrigin Expr) :=
  groupByColumnOrigins.map Sum.inl ++ aggregateExpressions.map Sum.inr

/-- The result of `_translate_aggregate`: the AggregateNode's contents, the
remembered `output_columns`, and the final ProjectionNode's columns — for
each output column, what `find_column_origin_by_output_column_id` on the
aggregate node resolves its recorded id to (with the recorded alias). -/
structure AggregateTranslation where
  aggregateExpressions : List Expr
  groupByColumnOrigins : List ColumnOrigin
  outputColumns : List (Nat × Option String)
  projectionColumns : List (Option (Sum ColumnOrigin Expr) × Option String)

/-- The group-by resolution prelude of `_translate_aggregate`. -/
def resolveGroupByOrigins (inputColumns : List String)
    (groupBy : Option GroupByDescription) :
    Except String (Option (List ColumnOrigin)) :=
  match groupBy with
  | none => Except.ok none
  | some gb =>
    match resolveGroupByColumns inputColumns gb.columns with
    | Except.error e => Except.error e
    | Except.ok origins => Except.ok (some origins)

/-- The tail of `_translate_aggregate` (lines 659–706): merge the HAVING
aggregates into the aggregate list and assemble the AggregateNode contents
and the final projection. -/
def buildAggregateTranslation (toLqp : HsqlExpr → Expr)
    (groupBy : Option GroupByDescription) (origins : List ColumnOrigin)
    (selectAggregates : List Expr)
    (outputColumns : List (Nat × Option String)) : AggregateTranslation :=
  let aggregateExpressions :=
    match groupBy with
    | some gb =>
      match gb.having with
      | some hv =>
        appendHavingAggregates selectAggregates (retrieveHavingAggregates toLqp hv)
      | none => selectAggregates
    | none => selectAggregates
  { aggregateExpressions := aggregateExpressions
    groupByColumnOrigins := origins
    outputColumns := outputColumns
    projectionColumns := outputColumns.map
      (fun oc => ((aggregateNodeOutput origins aggregateExpressions)[oc.1]?, oc.2)) }

/-- `SQLTranslator::_translate_aggregate` (lines 541–706): resolve the
group-by columns through the aliasing projection, walk the SELECT list,
append the HAVING aggregates missing from the aggregate list, and build the
final projection from the remembered output column ids. -/
def translateAggregate (toLqp : HsqlExpr → Expr) (inputColumns : List String)
    (selectList : List HsqlExpr) (groupBy : Option GroupByDescription) :
    Except String AggregateTranslation :=
  match resolveGroupByOrigins inputColumns groupBy with
  | Except.error e => Except.error e
  | Except.ok groupByOrigins =>
    match processSelectList toLqp inputColumns groupByOrigins selectList
        (groupByOrigins.getD []).length with
    | Except.error e => Except.error e
    | Except.ok (selectAggregates, outputColumns) =>
      Except.ok (buildAggregateTranslation toLqp groupBy (groupByOrigins.getD [])
        selectAggregates outputColumns)

/-- The amended acceptance condition for one SELECT-list item of an
aggregate query: an aggregate-function reference, or a column reference that
resolves to a column of the GROUP BY list.  Stated for comparison with the
source-derived `processSelectList`. -/
def selectItemOk (inputColumns : List String)
    (groupByOrigins : Option (List ColumnOrigin)) : HsqlExpr → Bool
  | HsqlExpr.functionRef _ _ _ => true
  | HsqlExpr.columnRef name _ =>
    match groupByOrigins with
    | none => false
    | some origins =>
      match inputColumns.indexOf? name with
      | none => false
      | some origin => decide (origin ∈ origins)
  | _ => false

theorem processSelectList_isOk (toLqp : HsqlExpr → Expr) (ic : List String)
    (gbo : Option (List ColumnOrigin)) : ∀ (items : List HsqlExpr) (k : Nat),
    (processSelectList toLqp ic gbo items k).isOk =
      items.all (selectItemOk ic gbo)
  | [], k => by simp [processSelectList, Except.isOk, Except.toBool]
  | item :: rest, k => by
    cases item with
    | literalInt i al =>
      simp [processSelectList, selectItemOk, Except.isOk, Except.toBool]
    | star => simp [processSelectList, selectItemOk, Except.isOk, Except.toBool]
    | operatorExpr op e1 e2 =>
      simp [processSelectList, selectItemOk, Except.isOk, Except.toBool]
    | functionRef fn arg al =>
      have ih := processSelectList_isOk toLqp ic gbo rest (k + 1)
      simp only [processSelectList]
      cases hp : processSelectList toLqp ic gbo rest (k + 1) with
      | error e =>
        rw [hp] at ih
        simp [selectItemOk, ← ih, Except.isOk, Except.toBool]
      | ok p =>
        rw [hp] at ih
        rcases p with ⟨aggs, outs⟩
        simp [selectItemOk, ← ih, Except.isOk, Except.toBool]
    | columnRef name al =>
      have ih := processSelectList_isOk toLqp ic gbo rest k
      simp only [processSelectList]
      cases gbo with
      | none => simp [selectItemOk, Except.isOk, Except.toBool]
      | some origins =>
        cases hidx : ic.indexOf? name with
        | none => simp [hidx, selectItemOk, Except.isOk, Except.toBool]
        | some origin =>
          simp only [hidx]
          by_cases hmem : origin ∈ origins
          · rw [if_pos hmem]
            cases hp : processSelectList toLqp ic (some origins) rest k with
            | error e =>
              rw [hp] at ih
              simp [selectItemOk, hidx, hmem, ← ih, Except.isOk, Except.toBool]
            | ok p =>
              rw [hp] at ih
              rcases p with ⟨aggs, outs⟩
              simp [selectItemOk, hidx, hmem, ← ih, Except.isOk, Except.toBool]
          · rw [if_neg hmem]
            simp [selectItemOk, hidx, hmem, Except.isOk, Except.toBool]

theorem resolveGroupByOrigins_some (ic : List String) (gb : GroupByDescription)
    (origins : List ColumnOrigin)
    (hres : resolveGroupByColumns ic gb.columns = Except.ok origins) :
    resolveGroupByOrigins ic (some gb) = Except.ok (some origins) := by
  rw [resolveGroupByOrigins, hres]

theorem translateAggregate_none_eq (toLqp : HsqlExpr → Expr) (ic : List String)
    (selectList : List HsqlExpr) :
    translateAggregate toLqp ic selectList none =
      match processSelectList toLqp ic none selectList 0 with
      | Except.error e => Except.error e
      | Except.ok (selectAggregates, outputColumns) =>
        Except.ok (buildAggregateTranslation toLqp none [] selectAggregates
          outputColumns) := rfl

theorem translateAggregate_some_eq (toLqp : HsqlExpr → Expr) (ic : List String)
    (selectList : List HsqlExpr) (gb : GroupByDescription)
    (origins : List ColumnOrigin)
    (hres : resolveGroupByColumns ic gb.columns = Except.ok origins) :
    translateAggregate toLqp ic selectList (some gb) =
      match processSelectList toLqp ic (some origins) selectList origins.length with
      | Except.error e => Except.error e
      | Except.ok (selectAggregates, outputColumns) =>
        Except.ok (buildAggregateTranslation toLqp (some gb) origins selectAggregates
          outputColumns) := by
  rw [translateAggregate, resolveGroupByOrigins_some ic gb origins hres]
  rfl

/-- A concrete argument translator standing in for
`HSQLExprTranslator::to_lqp_expression` in witnesses and counterexamples:
literals become `Literal` expressions, column references `Column`
expressions, stars `Star` expressions, aggregate-function references
`Function` expressions over the translated argument (as
`create_aggregate_function` builds them), operators binary expressions. -/
def sampleToLqp : HsqlExpr → Expr
  | HsqlExpr.literalInt i al =>
    Expr.mk ExpressionType.Literal (some (Value.intVal i)) none none al none [] none none
  | HsqlExpr.columnRef _ al =>
    Expr.mk ExpressionType.Column none none none al none [] none none
  | HsqlExpr.star =>
    Expr.mk ExpressionType.Star none none none none none [] none none
  | HsqlExpr.functionRef fn arg al =>
    Expr.mk ExpressionType.Function none (some fn) none al none [sampleToLqp arg] none none
  | HsqlExpr.operatorExpr _ e1 e2 =>
    Expr.mk ExpressionType.Equals none none none none none []
      (some (sampleToLqp e1)) (some (sampleToLqp e2))

/-- C4, counterexample: a star in the SELECT list of an aggregate query is
not accepted — it falls into the final `else` of the SELECT-list loop and
trips the hard error — although the claim lists stars among the accepted
items. -/
theorem translateAggregate_star_rejected :
    translateAggregate sampleToLqp ["a", "b"] [HsqlExpr.star]
        (some { columns := ["a"], having := none }) =
      Except.error "Unsupported item in projection list for AggregateOperator." := by
  rfl

/-- C4 (amended): a SELECT-list item of an aggregate query is accepted if
and only if it is an aggregate-function reference or a column reference
resolving to a column of the GROUP BY list; a star or any other item kind,
a column without a GROUP BY clause, and a column absent from the GROUP BY
list are hard translation errors, each with its specific message, before any
operator executes. -/
theorem translateAggregate_acceptance (toLqp : HsqlExpr → Expr)
    (inputColumns : List String) (selectList : List HsqlExpr) :
    (Except.isOk (translateAggregate toLqp inputColumns selectList none) =
      selectList.all (selectItemOk inputColumns none)) ∧
      (∀ (gb : GroupByDescription) (origins : List ColumnOrigin),
        resolveGroupByColumns inputColumns gb.columns = Except.ok origins →
        Except.isOk (translateAggregate toLqp inputColumns selectList (some gb)) =
          selectList.all (selectItemOk inputColumns (some origins))) := by
  constructor
  · have ih := processSelectList_isOk toLqp inputColumns none selectList 0
    rw [translateAggregate_none_eq]
    cases hp : processSelectList toLqp inputColumns none selectList 0 with
    | error e =>
      rw [hp] at ih
      rw [← ih]
      rfl
    | ok p =>
      rw [hp] at ih
      rcases p with ⟨aggs, outs⟩
      rw [← ih]
      rfl
  · intro gb origins hres
    have ih := processSelectList_isOk toLqp inputColumns (some origins) selectList
      origins.length
    rw [translateAggregate_some_eq toLqp inputColumns selectList gb origins hres]
    cases hp : processSelectList toLqp inputColumns (some origins) selectList
        origins.length with
    | error e =>
      rw [hp] at ih
      rw [← ih]
      rfl
    | ok p =>
      rw [hp] at ih
      rcases p with ⟨aggs, outs⟩
      rw [← ih]
      rfl

/-- C4, witness: with input columns `a, b`, SELECT list `a, SUM(b)` and
GROUP BY `a`, every item is accepted and the translation succeeds. -/
theorem translateAggregate_acceptance_witness :
    Except.isOk (translateAggregate sampleToLqp ["a", "b"]
        [HsqlExpr.columnRef "a" none,
         HsqlExpr.functionRef AggregateFunction.Sum (HsqlExpr.columnRef "b" none) none]
        (some { columns := ["a"], having := none })) =
      List.all
        [HsqlExpr.columnRef "a" none,
         HsqlExpr.functionRef AggregateFunction.Sum (HsqlExpr.columnRef "b" none) none]
        (selectItemOk ["a", "b"] (some [0])) :=
  (translateAggregate_acceptance sampleToLqp ["a", "b"]
    [HsqlExpr.columnRef "a" none,
     HsqlExpr.functionRef AggregateFunction.Sum (HsqlExpr.columnRef "b" none) none]).2
    { columns := ["a"], having := none } [0] rfl

/-- The query of the C6 analysis: over a table with columns `a, b` (so the
selected group-by column `b` is input column 1),
`SELECT b, SUM(a) FROM t GROUP BY b HAVING AVG(a) > 0`. -/
def bugSelectList : List HsqlExpr :=
  [HsqlExpr.columnRef "b" none,
   HsqlExpr.functionRef AggregateFunction.Sum (HsqlExpr.columnRef "a" none) none]

def bugGroupBy : GroupByDescription :=
  { columns := ["b"],
    having := some (HsqlExpr.operatorExpr HsqlOperatorType.kOpGreater
      (HsqlExpr.functionRef AggregateFunction.Avg (HsqlExpr.columnRef "a" none) none)
      (HsqlExpr.literalInt 0 none)) }

/-- C6: the HAVING aggregate `AVG(a)`, absent from the SELECT list, is
appended to the aggregate expressions — but the final projection does not
expose the SELECT-list columns: for the selected group-by column `b` the
translator records the column id found on the groupby-aliasing node (the
input index 1) and later reads it back as an AggregateNode output id, where
id 1 is the first aggregate, `SUM(a)` (group-by columns come first: here
only `b`, at id 0).  The projection therefore exposes `SUM(a)` twice instead
of `b, SUM(a)`, contradicting the claim (and the source comment that the
projection "establishes the correct column order as requested by the SELECT
list"). -/
theorem translateAggregate_projection_bug :
    translateAggregate sampleToLqp ["a", "b"] bugSelectList (some bugGroupBy) =
      Except.ok
        { aggregateExpressions :=
            [sampleToLqp (HsqlExpr.functionRef AggregateFunction.Sum
              (HsqlExpr.columnRef "a" none) none),
             sampleToLqp (HsqlExpr.functionRef AggregateFunction.Avg
              (HsqlExpr.columnRef "a" none) none)],
          groupByColumnOrigins := [1],
          outputColumns := [(1, none), (1, none)],
          projectionColumns :=
            [(some (Sum.inr (sampleToLqp (HsqlExpr.functionRef AggregateFunction.Sum
                (HsqlExpr.columnRef "a" none) none))), none),
             (some (Sum.inr (sampleToLqp (HsqlExpr.functionRef AggregateFunction.Sum
                (HsqlExpr.columnRef "a" none) none))), none)] } := by
  have hne : exprEq
      (sampleToLqp (HsqlExpr.functionRef AggregateFunction.Sum
        (HsqlExpr.columnRef "a" none) none))
      (sampleToLqp (HsqlExpr.functionRef AggregateFunction.Avg
        (HsqlExpr.columnRef "a" none) none)) = false := by
    simp [sampleToLqp, exprEq]
  have hres : resolveGroupByColumns ["a", "b"] bugGroupBy.columns =
      Except.ok [1] := rfl
  rw [translateAggregate_some_eq sampleToLqp ["a", "b"] bugSelectList bugGroupBy
    [1] hres]
  rw [show processSelectList sampleToLqp ["a", "b"] (some [1]) bugSelectList
      ([1] : List ColumnOrigin).length =
      Except.ok
        ([sampleToLqp (HsqlExpr.functionRef AggregateFunction.Sum
          (HsqlExpr.columnRef "a" none) none)],
         [(1, none), (1, none)]) from rfl]
  have happ : appendHavingAggregates
      [sampleToLqp (HsqlExpr.functionRef AggregateFunction.Sum
        (HsqlExpr.columnRef "a" none) none)]
      [sampleToLqp (HsqlExpr.functionRef AggregateFunction.Avg
        (HsqlExpr.columnRef "a" none) none)] =
      [sampleToLqp (HsqlExpr.functionRef AggregateFunction.Sum
        (HsqlExpr.columnRef "a" none) none),
       sampleToLqp (HsqlExpr.functionRef AggregateFunction.Avg
        (HsqlExpr.columnRef "a" none) none)] := by
    simp [appendHavingAggregates, hne]
  have hretr : retrieveHavingAggregates sampleToLqp
      (HsqlExpr.operatorExpr HsqlOperatorType.kOpGreater
        (HsqlExpr.functionRef AggregateFunction.Avg (HsqlExpr.columnRef "a" none) none)
        (HsqlExpr.literalInt 0 none)) =
      [sampleToLqp (HsqlExpr.functionRef AggregateFunction.Avg
        (HsqlExpr.columnRef "a" none) none)] := rfl
  simp only [buildAggregateTranslation, bugGroupBy, hretr, happ, aggregateNodeOutput]
  rfl
